import Mathlib

/-!
Shallow embedding of the note-management storage and query layer
(`notebook/models.py`, `notebook/storage.py`, `notebook/commands.py`).

Modelling conventions:
* Python strings are Lean `String`; Python ints are Lean `Int`.
* `datetime.now().isoformat()` is modelled by an explicit `now : String`
  parameter threaded into each operation; all clock readings inside a
  single operation coincide, and monotonicity of the clock across
  operations is a hypothesis of the theorems that need it.
* `str.lower()` is modelled on the ASCII range via `Char.toLower`.
* A JSON object holding a persisted record is modelled by `RawNote`:
  every expected key is an `Option` field (`none` = key absent).
  A file whose text does not parse as a JSON array of such records is
  modelled by `FileData.invalid`; `json.JSONDecodeError` is the failure
  that raises.  A missing backing file is created holding `[]`, i.e. it
  behaves as `FileData.records []`.
* Exceptions are explicit: `PyError.keyError` models `KeyError`
  (required key absent), `PyError.valueError` models `ValueError`
  (enumeration lookup failure); fallible operations return `Except`.
-/

/-- The `NoteStatus` enumeration from `models.py`. -/
inductive NoteStatus
  | active
  | archived
deriving DecidableEq, Repr

/-- String value of a status, as stored in the file (`.value`). -/
def NoteStatus.value : NoteStatus → String
  | .active => "active"
  | .archived => "archived"

/-- Enum lookup `NoteStatus(s)`: reverse lookup from string value to member;
`none` models the `ValueError` raised on an unrecognized value. -/
def NoteStatus.ofValue : String → Option NoteStatus
  | "active" => some .active
  | "archived" => some .archived
  | _ => none

/-- The `NotePriority` enumeration from `models.py`. -/
inductive NotePriority
  | low
  | medium
  | high
deriving DecidableEq, Repr

/-- String value of a priority (`.value`). -/
def NotePriority.value : NotePriority → String
  | .low => "low"
  | .medium => "medium"
  | .high => "high"

/-- Enum lookup `NotePriority(s)`: reverse lookup; `none` models `ValueError`. -/
def NotePriority.ofValue : String → Option NotePriority
  | "low" => some .low
  | "medium" => some .medium
  | "high" => some .high
  | _ => none

/-- The `NoteCategory` enumeration from `models.py`. -/
inductive NoteCategory
  | work
  | personal
  | study
  | shopping
  | ideas
  | other
deriving DecidableEq, Repr

/-- String value of a category (`.value`). -/
def NoteCategory.value : NoteCategory → String
  | .work => "work"
  | .personal => "personal"
  | .study => "study"
  | .shopping => "shopping"
  | .ideas => "ideas"
  | .other => "other"

/-- Enum lookup `NoteCategory(s)`: reverse lookup; `none` models `ValueError`. -/
def NoteCategory.ofValue : String → Option NoteCategory
  | "work" => some .work
  | "personal" => some .personal
  | "study" => some .study
  | "shopping" => some .shopping
  | "ideas" => some .ideas
  | "other" => some .other
  | _ => none

/-- The `Note` class of `models.py`, after `__init__` has normalised the
optional arguments: every field holds a definite value. -/
structure Note where
  id : Int
  title : String
  content : String
  category : NoteCategory
  priority : NotePriority
  tags : List String
  status : NoteStatus
  created_at : String
  updated_at : String
deriving DecidableEq, Repr

/-- Python truthiness of an optional string (`None` and `""` are falsy). -/
def pyStrTruthy : Option String → Bool
  | none => false
  | some s => !(s == "")

/-- Python `x or now` applied to an optional timestamp string, as in
`created_at or datetime.now().isoformat()`: `None` and the empty
string are falsy and are replaced by the current time. -/
def pyOrNow (v : Option String) (now : String) : String :=
  match v with
  | none => now
  | some s => if s == "" then now else s

/-- Python `tags or []` applied to an optional tag list: `None` and `[]` are
falsy and yield `[]`. -/
def pyTagsOr (v : Option (List String)) : List String :=
  match v with
  | none => []
  | some l => if l.isEmpty then [] else l

/-- Constructor `Note.__init__`: builds a note, defaulting absent tags to `[]` and
absent (or empty) timestamps to the current time `now`. -/
def Note.init (id : Int) (title content : String) (category : NoteCategory)
    (priority : NotePriority) (tags : Option (List String)) (status : NoteStatus)
    (created_at updated_at : Option String) (now : String) : Note :=
  { id := id
    title := title
    content := content
    category := category
    priority := priority
    tags := pyTagsOr tags
    status := status
    created_at := pyOrNow created_at now
    updated_at := pyOrNow updated_at now }

/-- A persisted record: the JSON object written for one note.  Each
expected key is present (`some`) or absent (`none`). -/
structure RawNote where
  id : Option Int
  title : Option String
  content : Option String
  category : Option String
  priority : Option String
  tags : Option (List String)
  status : Option String
  created_at : Option String
  updated_at : Option String
deriving DecidableEq, Repr

/-- Method `Note.to_dict`: serializes a note; every key is emitted, enum fields
as their string value. -/
def Note.to_dict (n : Note) : RawNote :=
  { id := some n.id
    title := some n.title
    content := some n.content
    category := some n.category.value
    priority := some n.priority.value
    tags := some n.tags
    status := some n.status.value
    created_at := some n.created_at
    updated_at := some n.updated_at }

/-- Python exceptions relevant to record parsing. -/
inductive PyError
  | keyError
  | valueError
deriving DecidableEq, Repr

/-- Key access `data['k']`: raises `KeyError` when the key is absent. -/
def getRequired {α : Type} (v : Option α) : Except PyError α :=
  match v with
  | none => .error .keyError
  | some a => .ok a

/-- Enum read `Enum(data['k'])`: raises `KeyError` when the key is absent, then
`ValueError` when the value is not a member of the enumeration. -/
def getEnum {α : Type} (ofValue : String → Option α) (v : Option String) :
    Except PyError α :=
  match v with
  | none => .error .keyError
  | some s =>
    match ofValue s with
    | none => .error .valueError
    | some a => .ok a

/-- Method `Note.from_dict`: reconstructs a note from a record.  Fields are
read in the evaluation order of the Python call (`id`, `title`,
`content`, `category`, `priority`, `tags`, `status`, `created_at`,
`updated_at`); the first failing required read determines the raised
exception. -/
def Note.from_dict (data : RawNote) (now : String) : Except PyError Note := do
  let id ← getRequired data.id
  let title ← getRequired data.title
  let content ← getRequired data.content
  let category ← getEnum NoteCategory.ofValue data.category
  let priority ← getEnum NotePriority.ofValue data.priority
  let tags := data.tags.getD []
  let status ← getEnum NoteStatus.ofValue data.status
  .ok (Note.init id title content category priority (some tags) status
    data.created_at data.updated_at now)

/-- Method `Note.update`: applies only the supplied (non-`None`) fields and
always refreshes `updated_at` to the current time. -/
def Note.update (n : Note) (title content : Option String)
    (category : Option NoteCategory) (priority : Option NotePriority)
    (tags : Option (List String)) (now : String) : Note :=
  { n with
    title := title.getD n.title
    content := content.getD n.content
    category := category.getD n.category
    priority := priority.getD n.priority
    tags := tags.getD n.tags
    updated_at := now }

/-- Contents of the backing file, after JSON decoding is attempted:
either undecodable text, or an array of records. -/
inductive FileData
  | invalid
  | records (rs : List RawNote)
deriving DecidableEq, Repr

/-- Method `NoteStorage.save_notes`: overwrites the file with the serialized
collection. -/
def NoteStorage.save_notes (notes : List Note) : FileData :=
  .records (notes.map Note.to_dict)

/-- Method `NoteStorage.load_notes`: parses the file and converts each record
with `from_dict`.  `json.JSONDecodeError` and `KeyError` are caught and
yield the empty list; any other exception (notably the `ValueError`
raised by an unrecognized enumeration value) propagates. -/
def NoteStorage.load_notes (fd : FileData) (now : String) :
    Except PyError (List Note) :=
  match fd with
  | .invalid => .ok []
  | .records rs =>
    match rs.mapM (fun r => Note.from_dict r now) with
    | .ok notes => .ok notes
    | .error .keyError => .ok []
    | .error .valueError => .error .valueError

/-- Python `max(note.id for note in notes)` over a nonempty list, written as a
left fold starting from the first element. -/
def maxIdFrom (acc : Int) : List Note → Int
  | [] => acc
  | n :: rest => maxIdFrom (max acc n.id) rest

/-- The id `get_next_id` computes from a loaded collection: `1` when it
is empty, otherwise one greater than the maximum id. -/
def nextIdOf : List Note → Int
  | [] => 1
  | n :: rest => maxIdFrom n.id rest + 1

/-- Method `NoteStorage.get_next_id`: loads the collection and returns `1` when
it is empty, otherwise one greater than the maximum id. -/
def NoteStorage.get_next_id (fd : FileData) (now : String) :
    Except PyError Int := do
  let notes ← NoteStorage.load_notes fd now
  match notes with
  | [] => .ok 1
  | n :: rest => .ok (maxIdFrom n.id rest + 1)

/-- Python `str.lower()`, modelled on the ASCII range. -/
def lowerStr (s : String) : String :=
  String.mk (s.data.map Char.toLower)

/-- Whether `needle` occurs at the start of `hay` (character lists). -/
def chPre : List Char → List Char → Bool
  | [], _ => true
  | _ :: _, [] => false
  | a :: as, b :: bs => a == b && chPre as bs

/-- Whether `needle` occurs contiguously somewhere in `hay` (character lists). -/
def chSub (needle : List Char) : List Char → Bool
  | [] => chPre needle []
  | c :: rest => chPre needle (c :: rest) || chSub needle rest

/-- Python's `needle in hay` on strings: contiguous substring test. -/
def strIn (needle hay : String) : Bool :=
  chSub needle.data hay.data

/-- Lexicographic (code-point) order on character lists: Python's `<=`
on strings. -/
def chLe : List Char → List Char → Bool
  | [], _ => true
  | _ :: _, [] => false
  | a :: as, b :: bs => if a < b then true else if b < a then false else chLe as bs

/-- Python's `a <= b` on strings: lexicographic by code point. -/
def strLe (a b : String) : Bool :=
  chLe a.data b.data

/-- The comparison under which `filtered_notes.sort(key=lambda x:
x.created_at, reverse=True)` orders the list: `a` may precede `b`
exactly when `b.created_at <= a.created_at`. -/
def createdDesc (a b : Note) : Prop :=
  strLe b.created_at a.created_at = true

instance : DecidableRel createdDesc :=
  fun a b => inferInstanceAs (Decidable (strLe b.created_at a.created_at = true))

/-- Python's stable sort `list.sort(key=lambda x: x.created_at,
reverse=True)`: the stable sort under `createdDesc`.  A stable sort for
a total comparison is extensionally unique, so insertion sort computes
the same list CPython's timsort does. -/
def sortByCreatedDesc (l : List Note) : List Note :=
  l.insertionSort createdDesc

/-- Outcome of `list_notes`, keeping the data the returned message is
rendered from. -/
inductive ListResult
  | noNotes
  | invalidCategory (c : String)
  | invalidPriority (p : String)
  | invalidStatus (s : String)
  | noneMatched
  | found (notes : List Note)
deriving DecidableEq, Repr

/-- One optional filter argument of `list_notes` (and the optional
category/priority of `edit_note`): skipped when falsy, otherwise parsed
with the enumeration's reverse lookup after lowercasing; an unknown
value yields the error message carrying the offending input. -/
def parseFilter {α : Type} (ofValue : String → Option α) (arg : Option String) :
    Except String (Option α) :=
  if pyStrTruthy arg then
    match ofValue (lowerStr (arg.getD "")) with
    | none => .error (arg.getD "")
    | some a => .ok (some a)
  else .ok none

/-- The category filtering step of `list_notes`. -/
def applyCategory (f : Option NoteCategory) (notes : List Note) : List Note :=
  match f with
  | none => notes
  | some c => notes.filter (fun n => n.category == c)

/-- The priority filtering step of `list_notes`. -/
def applyPriority (f : Option NotePriority) (notes : List Note) : List Note :=
  match f with
  | none => notes
  | some p => notes.filter (fun n => n.priority == p)

/-- The status filtering step of `list_notes`. -/
def applyStatus (f : Option NoteStatus) (notes : List Note) : List Note :=
  match f with
  | none => notes
  | some s => notes.filter (fun n => n.status == s)

/-- Body of `NoteCommands.list_notes` after the collection has been
loaded: empty-store check, the three sequential validated filters, the
empty-result check, and the descending stable sort.  The CLI default
for `status` corresponds to `some "active"`. -/
def NoteCommands.list_core (notes : List Note)
    (category priority status : Option String) : ListResult :=
  if notes.isEmpty then .noNotes
  else
    match parseFilter NoteCategory.ofValue category with
    | .error c => .invalidCategory c
    | .ok catF =>
      match parseFilter NotePriority.ofValue priority with
      | .error p => .invalidPriority p
      | .ok priF =>
        match parseFilter NoteStatus.ofValue status with
        | .error s => .invalidStatus s
        | .ok statF =>
          let filtered := applyStatus statF (applyPriority priF (applyCategory catF notes))
          if filtered.isEmpty then .noneMatched
          else .found (sortByCreatedDesc filtered)

/-- Method `NoteCommands.list_notes`: loads, then runs `list_core`; performs no
write, so the file state is returned unchanged. -/
def NoteCommands.list_notes (fd : FileData) (now : String)
    (category priority status : Option String) :
    Except PyError (ListResult × FileData) := do
  let notes ← NoteStorage.load_notes fd now
  .ok (NoteCommands.list_core notes category priority status, fd)

/-- The per-note match test of `search_notes`: the `if`/`elif` chain over
the scope, applied to the already-lowercased search term. -/
def noteMatches (search_in : String) (term : String) (n : Note) : Bool :=
  if (search_in == "all" || search_in == "title") && strIn term (lowerStr n.title) then
    true
  else if (search_in == "all" || search_in == "content") && strIn term (lowerStr n.content) then
    true
  else if (search_in == "all" || search_in == "tags")
      && n.tags.any (fun t => strIn term (lowerStr t)) then
    true
  else false

/-- Outcome of `search_notes`; the not-found message carries the
lowercased term, as in the source. -/
inductive SearchResult
  | noNotes
  | notFound (term : String)
  | found (term : String) (notes : List Note)
deriving DecidableEq, Repr

/-- Body of `NoteCommands.search_notes` after loading: lowercase the
term, collect matching notes in file order, report when none matched,
otherwise sort descending by creation time. -/
def NoteCommands.search_core (notes : List Note)
    (search_term search_in : String) : SearchResult :=
  if notes.isEmpty then .noNotes
  else
    let term := lowerStr search_term
    let found_notes := notes.filter (noteMatches search_in term)
    if found_notes.isEmpty then .notFound term
    else .found term (sortByCreatedDesc found_notes)

/-- Method `NoteCommands.search_notes`: loads, then runs `search_core`; no
write. -/
def NoteCommands.search_notes (fd : FileData) (now : String)
    (search_term search_in : String) :
    Except PyError (SearchResult × FileData) := do
  let notes ← NoteStorage.load_notes fd now
  .ok (NoteCommands.search_core notes search_term search_in, fd)

/-- Outcome of `add_note`. -/
inductive AddResult
  | invalidCategory (c : String)
  | invalidPriority (p : String)
  | added (id : Int) (title : String)
deriving DecidableEq, Repr

/-- Method `NoteCommands.add_note`: loads, validates category then priority
(returning without a write on failure), assigns `get_next_id`, appends
the freshly constructed note and saves. -/
def NoteCommands.add_note (fd : FileData) (now : String)
    (title content : String) (category priority : String)
    (tags : Option (List String)) : Except PyError (AddResult × FileData) := do
  let notes ← NoteStorage.load_notes fd now
  match NoteCategory.ofValue (lowerStr category) with
  | none => .ok (.invalidCategory category, fd)
  | some note_category =>
    match NotePriority.ofValue (lowerStr priority) with
    | none => .ok (.invalidPriority priority, fd)
    | some note_priority => do
      let nid ← NoteStorage.get_next_id fd now
      let new_note := Note.init nid title content note_category note_priority
        (some (pyTagsOr tags)) .active none none now
      .ok (.added nid title, NoteStorage.save_notes (notes ++ [new_note]))

/-- Outcome of `delete_note`. -/
inductive DeleteResult
  | deleted (id : Int) (title : String)
  | notFound (id : Int)
deriving DecidableEq, Repr

/-- The scan of `delete_note`: remove the first note with the given id,
returning its title and the remaining list. -/
def deleteById (note_id : Int) : List Note → Option (String × List Note)
  | [] => none
  | n :: rest =>
    if n.id == note_id then some (n.title, rest)
    else
      match deleteById note_id rest with
      | none => none
      | some (t, rest2) => some (t, n :: rest2)

/-- Method `NoteCommands.delete_note`: removes the first matching note and
saves; a missing id reports not-found and performs no write. -/
def NoteCommands.delete_note (fd : FileData) (now : String) (note_id : Int) :
    Except PyError (DeleteResult × FileData) := do
  let notes ← NoteStorage.load_notes fd now
  match deleteById note_id notes with
  | some (t, remaining) => .ok (.deleted note_id t, NoteStorage.save_notes remaining)
  | none => .ok (.notFound note_id, fd)

/-- Result of the scan inside `archive_note`. -/
inductive ArchiveScan
  | notFound
  | alreadyArchived
  | archived (notes : List Note) (title : String)
deriving DecidableEq, Repr

/-- The scan of `archive_note`: find the first note with the given id;
if already archived report that, otherwise set its status to archived
and refresh `updated_at`. -/
def archiveById (note_id : Int) (now : String) : List Note → ArchiveScan
  | [] => .notFound
  | n :: rest =>
    if n.id == note_id then
      if n.status == .archived then .alreadyArchived
      else .archived ({ n with status := .archived, updated_at := now } :: rest) n.title
    else
      match archiveById note_id now rest with
      | .notFound => .notFound
      | .alreadyArchived => .alreadyArchived
      | .archived ns t => .archived (n :: ns) t

/-- Outcome of `archive_note`. -/
inductive ArchiveResult
  | archived (id : Int) (title : String)
  | alreadyArchived (id : Int)
  | notFound (id : Int)
deriving DecidableEq, Repr

/-- Method `NoteCommands.archive_note`: archives the first matching active
note and saves; already-archived and not-found report without a
write. -/
def NoteCommands.archive_note (fd : FileData) (now : String) (note_id : Int) :
    Except PyError (ArchiveResult × FileData) := do
  let notes ← NoteStorage.load_notes fd now
  match archiveById note_id now notes with
  | .notFound => .ok (.notFound note_id, fd)
  | .alreadyArchived => .ok (.alreadyArchived note_id, fd)
  | .archived ns t => .ok (.archived note_id t, NoteStorage.save_notes ns)

/-- Result of the scan inside `edit_note`. -/
inductive EditScan
  | notFound
  | invalidCategory (c : String)
  | invalidPriority (p : String)
  | updated (notes : List Note) (title : String)
deriving DecidableEq, Repr

/-- The scan of `edit_note`: find the first note with the given id,
validate the supplied (truthy) category and priority, then apply
`Note.update` with only the supplied fields.  The success payload
carries the title read after the update, as the source does. -/
def editById (note_id : Int) (now : String) (title content : Option String)
    (category priority : Option String) (tags : Option (List String)) :
    List Note → EditScan
  | [] => .notFound
  | n :: rest =>
    if n.id == note_id then
      match parseFilter NoteCategory.ofValue category with
      | .error c => .invalidCategory c
      | .ok note_category =>
        match parseFilter NotePriority.ofValue priority with
        | .error p => .invalidPriority p
        | .ok note_priority =>
          let n2 := n.update title content note_category note_priority tags now
          .updated (n2 :: rest) n2.title
    else
      match editById note_id now title content category priority tags rest with
      | .notFound => .notFound
      | .invalidCategory c => .invalidCategory c
      | .invalidPriority p => .invalidPriority p
      | .updated ns t => .updated (n :: ns) t

/-- Outcome of `edit_note`. -/
inductive EditResult
  | invalidCategory (c : String)
  | invalidPriority (p : String)
  | updated (id : Int) (title : String)
  | notFound (id : Int)
deriving DecidableEq, Repr

/-- Method `NoteCommands.edit_note`: updates the first matching note and
saves; validation failures and not-found report without a write. -/
def NoteCommands.edit_note (fd : FileData) (now : String) (note_id : Int)
    (title content : Option String) (category priority : Option String)
    (tags : Option (List String)) : Except PyError (EditResult × FileData) := do
  let notes ← NoteStorage.load_notes fd now
  match editById note_id now title content category priority tags notes with
  | .notFound => .ok (.notFound note_id, fd)
  | .invalidCategory c => .ok (.invalidCategory c, fd)
  | .invalidPriority p => .ok (.invalidPriority p, fd)
  | .updated ns t => .ok (.updated note_id t, NoteStorage.save_notes ns)

/-- The notes rendered by a `list_notes` outcome (empty for the error
and empty-result messages). -/
def listResultNotes : ListResult → List Note
  | .found ns => ns
  | _ => []

/-- The notes rendered by a `search_notes` outcome. -/
def searchResultNotes : SearchResult → List Note
  | .found _ ns => ns
  | _ => []

/-- All keys `from_dict` reads unconditionally are present
(`id, title, content, category, priority, status`). -/
def RawNote.hasRequiredKeys (r : RawNote) : Bool :=
  r.id.isSome && r.title.isSome && r.content.isSome
    && r.category.isSome && r.priority.isSome && r.status.isSome

/-- Every enumeration-valued key that is present holds a recognized
value. -/
def RawNote.enumsOk (r : RawNote) : Bool :=
  (match r.category with
   | none => true
   | some s => (NoteCategory.ofValue s).isSome)
  && (match r.priority with
      | none => true
      | some s => (NotePriority.ofValue s).isSome)
  && (match r.status with
      | none => true
      | some s => (NoteStatus.ofValue s).isSome)

/-- A note whose timestamps are nonempty strings (ISO-8601 timestamps
always are); such notes survive the serialization round trip
unchanged. -/
def Note.wellFormed (n : Note) : Bool :=
  !(n.created_at == "") && !(n.updated_at == "")

/-- The arguments of one `add_note` call, together with the clock
reading observed during the call. -/
structure AddCall where
  now : String
  title : String
  content : String
  category : String
  priority : String
  tags : Option (List String)

/-- Run one `add_note` call against the persisted state; a raised
exception leaves the file untouched. -/
def applyAdd (fd : FileData) (c : AddCall) : FileData :=
  match NoteCommands.add_note fd c.now c.title c.content c.category c.priority c.tags with
  | .ok (_, fd2) => fd2
  | .error _ => fd

/-- Run a sequence of `add_note` calls. -/
def runAdds (fd : FileData) : List AddCall → FileData
  | [] => fd
  | c :: cs => runAdds (applyAdd fd c) cs

/-- One mutating operation of the command layer. -/
inductive Op
  | add (title content category priority : String) (tags : Option (List String))
  | delete (id : Int)
  | archive (id : Int)
  | edit (id : Int) (title content : Option String)
      (category priority : Option String) (tags : Option (List String))

/-- Run one operation at clock reading `now`; a raised exception leaves
the file untouched. -/
def applyOp (fd : FileData) (now : String) : Op → FileData
  | .add title content category priority tags =>
    match NoteCommands.add_note fd now title content category priority tags with
    | .ok (_, fd2) => fd2
    | .error _ => fd
  | .delete id =>
    match NoteCommands.delete_note fd now id with
    | .ok (_, fd2) => fd2
    | .error _ => fd
  | .archive id =>
    match NoteCommands.archive_note fd now id with
    | .ok (_, fd2) => fd2
    | .error _ => fd
  | .edit id title content category priority tags =>
    match NoteCommands.edit_note fd now id title content category priority tags with
    | .ok (_, fd2) => fd2
    | .error _ => fd

/-- Run a sequence of operations, each paired with its clock reading. -/
def runOps (fd : FileData) : List (Op × String) → FileData
  | [] => fd
  | (op, t) :: rest => runOps (applyOp fd t op) rest

/-- Test fixture: an active work note. -/
def noteA : Note :=
  { id := 1, title := "Alpha", content := "hello world", category := .work,
    priority := .low, tags := ["x"], status := .active,
    created_at := "2024-01-01T00:00:00", updated_at := "2024-01-02T00:00:00" }

/-- Test fixture: an archived personal note whose content mentions
WORK. -/
def noteB : Note :=
  { id := 2, title := "Beta", content := "WORK notes", category := .personal,
    priority := .high, tags := ["y", "z"], status := .archived,
    created_at := "2024-02-01T00:00:00", updated_at := "2024-02-01T00:00:00" }

/-- Test fixture: an active note sharing `created_at` with `noteA`. -/
def noteC : Note :=
  { id := 3, title := "Gamma", content := "more text", category := .work,
    priority := .medium, tags := [], status := .active,
    created_at := "2024-01-01T00:00:00", updated_at := "2024-01-03T00:00:00" }

/-- Test fixture: a persisted record whose `category` value is not a
member of the enumeration but whose required keys are all present. -/
def rawBad : RawNote :=
  { id := some 7, title := some "Bad", content := some "broken",
    category := some "bogus", priority := some "medium", tags := some [],
    status := some "active", created_at := some "2024-01-01T00:00:00",
    updated_at := some "2024-01-01T00:00:00" }

/-- Test fixture: a persisted record missing the required `id` key,
with every present enumeration value recognized. -/
def rawNoId : RawNote :=
  { rawBad with id := none, category := some "work" }

/-! Basic lemmas about the lexicographic comparison and the stable
sort. -/

theorem chLe_refl (xs : List Char) : chLe xs xs = true := by
  induction xs with
  | nil => rfl
  | cons x xs ih => simp [chLe, ih]

theorem chLe_total (xs : List Char) : ∀ ys, chLe xs ys = true ∨ chLe ys xs = true := by
  induction xs with
  | nil => intro ys; left; simp [chLe]
  | cons x xs ih =>
    intro ys
    cases ys with
    | nil => right; simp [chLe]
    | cons y ys =>
      rcases lt_trichotomy x y with h | h | h
      · left; simp [chLe, h]
      · subst h
        rcases ih ys with h2 | h2
        · left; simp [chLe, h2]
        · right; simp [chLe, h2]
      · right; simp [chLe, h]

theorem chLe_trans (xs : List Char) : ∀ ys zs, chLe xs ys = true → chLe ys zs = true →
    chLe xs zs = true := by
  induction xs with
  | nil => intro ys zs _ _; simp [chLe]
  | cons x xs ih =>
    intro ys zs h1 h2
    cases ys with
    | nil => simp [chLe] at h1
    | cons y ys =>
      cases zs with
      | nil => simp [chLe] at h2
      | cons z zs =>
        simp only [chLe] at h1 h2 ⊢
        rcases lt_trichotomy x y with hxy | hxy | hxy
        · rcases lt_trichotomy y z with hyz | hyz | hyz
          · simp [lt_trans hxy hyz]
          · subst hyz; simp [hxy]
          · simp [hyz, asymm hyz] at h2
        · subst hxy
          rcases lt_trichotomy x z with hyz | hyz | hyz
          · simp [hyz]
          · subst hyz
            simp [lt_irrefl] at h1 h2 ⊢
            exact ih _ _ h1 h2
          · simp [hyz, asymm hyz] at h2
        · simp [hxy, asymm hxy] at h1

theorem strLe_refl (s : String) : strLe s s = true :=
  chLe_refl s.data

theorem strLe_total (a b : String) : strLe a b = true ∨ strLe b a = true :=
  chLe_total a.data b.data

theorem strLe_trans {a b c : String} (h1 : strLe a b = true) (h2 : strLe b c = true) :
    strLe a c = true :=
  chLe_trans a.data b.data c.data h1 h2

instance : IsTotal Note createdDesc :=
  ⟨fun a b => strLe_total b.created_at a.created_at⟩

instance : IsTrans Note createdDesc :=
  ⟨fun _ _ _ h h2 => strLe_trans h2 h⟩

theorem mem_sortByCreatedDesc {n : Note} {l : List Note} :
    n ∈ sortByCreatedDesc l ↔ n ∈ l := by
  simp [sortByCreatedDesc, List.mem_insertionSort]

theorem sorted_sortByCreatedDesc (l : List Note) :
    (sortByCreatedDesc l).Pairwise createdDesc :=
  List.sorted_insertionSort createdDesc l

theorem perm_sortByCreatedDesc (l : List Note) :
    (sortByCreatedDesc l).Perm l :=
  List.perm_insertionSort createdDesc l

theorem pair_sublist_sortByCreatedDesc {a b : Note} {l : List Note}
    (hab : List.Sublist [a, b] l) (h : createdDesc a b) :
    List.Sublist [a, b] (sortByCreatedDesc l) :=
  List.sublist_insertionSort (by simp [List.pairwise_cons, h]) hab

theorem pair_sublist_filter {a b : Note} {l : List Note} (p : Note → Bool)
    (hab : List.Sublist [a, b] l) (ha : p a = true) (hb : p b = true) :
    List.Sublist [a, b] (l.filter p) := by
  have h := List.Sublist.filter p hab
  simpa [ha, hb] using h

/-! Lemmas about the search match test. -/

theorem noteMatches_eq (s t : String) (n : Note) :
    noteMatches s t n =
      (((s == "all" || s == "title") && strIn t (lowerStr n.title))
       || ((s == "all" || s == "content") && strIn t (lowerStr n.content))
       || ((s == "all" || s == "tags") && n.tags.any fun tg => strIn t (lowerStr tg))) := by
  unfold noteMatches
  cases h1 : ((s == "all" || s == "title") && strIn t (lowerStr n.title)) <;>
    cases h2 : ((s == "all" || s == "content") && strIn t (lowerStr n.content)) <;>
      cases h3 : ((s == "all" || s == "tags") && n.tags.any fun tg => strIn t (lowerStr tg)) <;>
        simp [h1, h2, h3]

theorem noteMatches_iff (s t : String) (n : Note) :
    noteMatches s t n = true ↔
      (((s = "title" ∨ s = "all") ∧ strIn t (lowerStr n.title) = true)
       ∨ ((s = "content" ∨ s = "all") ∧ strIn t (lowerStr n.content) = true)
       ∨ ((s = "tags" ∨ s = "all") ∧ ∃ tg ∈ n.tags, strIn t (lowerStr tg) = true)) := by
  rw [noteMatches_eq]
  simp only [Bool.or_eq_true, Bool.and_eq_true, List.any_eq_true, beq_iff_eq]
  tauto

/-- Claim C5: a note of the collection appears in the results of
`search_notes` if and only if the scope admits the title and the
lowercased term occurs in the lowercased title, or likewise for the
content, or likewise for some tag; in particular a term occurring only
in the content never matches under scope `title`. -/
theorem claim_C5 (notes : List Note) (term scope : String) (n : Note) (hn : n ∈ notes) :
    n ∈ searchResultNotes (NoteCommands.search_core notes term scope) ↔
      (((scope = "title" ∨ scope = "all") ∧ strIn (lowerStr term) (lowerStr n.title) = true)
       ∨ ((scope = "content" ∨ scope = "all") ∧ strIn (lowerStr term) (lowerStr n.content) = true)
       ∨ ((scope = "tags" ∨ scope = "all") ∧ ∃ tg ∈ n.tags, strIn (lowerStr term) (lowerStr tg) = true)) := by
  have hne : notes.isEmpty = false := by
    cases notes with
    | nil => cases hn
    | cons a l => rfl
  rw [← noteMatches_iff scope (lowerStr term) n]
  unfold NoteCommands.search_core
  rw [hne]
  simp only [Bool.false_eq_true, if_false]
  cases hfe : (notes.filter (noteMatches scope (lowerStr term))).isEmpty with
  | true =>
    have hnil : notes.filter (noteMatches scope (lowerStr term)) = [] :=
      List.isEmpty_iff.mp hfe
    have hfalse : noteMatches scope (lowerStr term) n = false := by
      rw [List.filter_eq_nil_iff] at hnil
      simpa using hnil n hn
    simp [hfe, searchResultNotes, hfalse]
  | false =>
    simp [hfe, searchResultNotes, mem_sortByCreatedDesc, List.mem_filter, hn]

/-- Witness for C5: searching `"WORK"` with scope `content` includes
the note whose content contains `WORK notes`. -/
theorem claim_C5_witness :
    noteB ∈ searchResultNotes (NoteCommands.search_core [noteA, noteB] "WORK" "content") :=
  (claim_C5 [noteA, noteB] "WORK" "content" noteB (by decide)).mpr
    (Or.inr (Or.inl ⟨Or.inl rfl, by decide⟩))

/-- Claim C6: listing with status filter `"archived"` never returns an
active note, and listing with the default arguments (no category or
priority filter, status defaulting to `"active"`) never returns an
archived note. -/
theorem claim_C6 :
    (∀ (notes : List Note) (category priority : Option String) (ns : List Note) (n : Note),
      NoteCommands.list_core notes category priority (some "archived") = .found ns →
      n ∈ ns → n.status ≠ .active)
    ∧ (∀ (notes ns : List Note) (n : Note),
      NoteCommands.list_core notes none none (some "active") = .found ns →
      n ∈ ns → n.status ≠ .archived) := by
  constructor
  · intro notes category priority ns n h hmem
    unfold NoteCommands.list_core at h
    split at h
    · exact absurd h (by simp)
    · split at h
      · exact absurd h (by simp)
      · split at h
        · exact absurd h (by simp)
        · rw [show parseFilter NoteStatus.ofValue (some "archived")
              = Except.ok (some NoteStatus.archived) from rfl] at h
          split at h
          · exact absurd h (by simp)
          · rename_i statF heq
            injection heq with heq
            subst heq
            simp only [applyStatus] at h
            split at h
            · exact absurd h (by simp)
            · injection h with h
              subst h
              rw [mem_sortByCreatedDesc] at hmem
              simp only [List.mem_filter, beq_iff_eq] at hmem
              rw [hmem.2]
              simp
  · intro notes ns n h hmem
    unfold NoteCommands.list_core at h
    split at h
    · exact absurd h (by simp)
    · split at h
      · exact absurd h (by simp)
      · split at h
        · exact absurd h (by simp)
        · rw [show parseFilter NoteStatus.ofValue (some "active")
              = Except.ok (some NoteStatus.active) from rfl] at h
          split at h
          · exact absurd h (by simp)
          · rename_i statF heq
            injection heq with heq
            subst heq
            simp only [applyStatus] at h
            split at h
            · exact absurd h (by simp)
            · injection h with h
              subst h
              rw [mem_sortByCreatedDesc] at hmem
              simp only [List.mem_filter, beq_iff_eq] at hmem
              rw [hmem.2]
              simp

/-- Witness for C6: on `[noteA, noteB]` the archived listing returns
only `noteB` (not active) and the default listing returns only `noteA`
(not archived). -/
theorem claim_C6_witness :
    noteB.status ≠ NoteStatus.active ∧ noteA.status ≠ NoteStatus.archived :=
  ⟨claim_C6.1 [noteA, noteB] none none [noteB] noteB (by decide) (by decide),
   claim_C6.2 [noteA, noteB] [noteA] noteA (by decide) (by decide)⟩

/-- Claim C10: searching a nonempty collection with a scope outside
`{title, content, tags, all}` matches no note and yields the ordinary
not-found message for the (lowercased) query; no distinct error result
exists for an unrecognized scope. -/
theorem claim_C10 (notes : List Note) (term scope : String) (hne : notes ≠ [])
    (h1 : scope ≠ "title") (h2 : scope ≠ "content") (h3 : scope ≠ "tags")
    (h4 : scope ≠ "all") :
    NoteCommands.search_core notes term scope = .notFound (lowerStr term) := by
  have hm : ∀ n, noteMatches scope (lowerStr term) n = false := by
    intro n
    unfold noteMatches
    simp [beq_iff_eq, h1, h2, h3, h4]
  have hie : notes.isEmpty = false := by
    cases notes with
    | nil => exact absurd rfl hne
    | cons a l => rfl
  unfold NoteCommands.search_core
  rw [hie]
  have hnil : notes.filter (noteMatches scope (lowerStr term)) = [] :=
    List.filter_eq_nil_iff.mpr (fun n _ => by simp [hm n])
  simp [hnil]

/-- Witness for C10: scope `"everywhere"` on a one-note collection
yields the not-found message even though the term occurs in the
title. -/
theorem claim_C10_witness :
    NoteCommands.search_core [noteA] "alpha" "everywhere" = .notFound "alpha" :=
  claim_C10 [noteA] "alpha" "everywhere" (by decide) (by decide) (by decide)
    (by decide) (by decide)

/-- Claim C8: whenever an operation reports a validation error
(invalid category/priority/status given to Add, List or Edit) or a
not-found error (Delete, Archive or Edit with an unknown id), the
persisted file after the call equals the persisted file before it. -/
theorem claim_C8 :
    (∀ fd now title content category priority tags c fd2,
      NoteCommands.add_note fd now title content category priority tags
        = .ok (.invalidCategory c, fd2) → fd2 = fd)
    ∧ (∀ fd now title content category priority tags p fd2,
      NoteCommands.add_note fd now title content category priority tags
        = .ok (.invalidPriority p, fd2) → fd2 = fd)
    ∧ (∀ fd now category priority status r fd2,
      NoteCommands.list_notes fd now category priority status = .ok (r, fd2) → fd2 = fd)
    ∧ (∀ fd now i j fd2,
      NoteCommands.delete_note fd now i = .ok (.notFound j, fd2) → fd2 = fd)
    ∧ (∀ fd now i j fd2,
      NoteCommands.archive_note fd now i = .ok (.notFound j, fd2) → fd2 = fd)
    ∧ (∀ fd now i title content category priority tags c fd2,
      NoteCommands.edit_note fd now i title content category priority tags
        = .ok (.invalidCategory c, fd2) → fd2 = fd)
    ∧ (∀ fd now i title content category priority tags p fd2,
      NoteCommands.edit_note fd now i title content category priority tags
        = .ok (.invalidPriority p, fd2) → fd2 = fd)
    ∧ (∀ fd now i title content category priority tags j fd2,
      NoteCommands.edit_note fd now i title content category priority tags
        = .ok (.notFound j, fd2) → fd2 = fd) := by
  refine ⟨?_, ?_, ?_, ?_, ?_, ?_, ?_, ?_⟩
  · intro fd now title content category priority tags c fd2 h
    unfold NoteCommands.add_note at h
    cases hl : NoteStorage.load_notes fd now with
    | error e => rw [hl] at h; simp [bind, Except.bind] at h
    | ok notes =>
      rw [hl] at h
      simp only [bind, Except.bind] at h
      split at h
      · injection h with h; injection h; simp_all
      · split at h
        · simp at h
        · cases hg : NoteStorage.get_next_id fd now with
          | error e => rw [hg] at h; simp [bind, Except.bind] at h
          | ok nid => rw [hg] at h; simp [bind, Except.bind] at h
  · intro fd now title content category priority tags p fd2 h
    unfold NoteCommands.add_note at h
    cases hl : NoteStorage.load_notes fd now with
    | error e => rw [hl] at h; simp [bind, Except.bind] at h
    | ok notes =>
      rw [hl] at h
      simp only [bind, Except.bind] at h
      split at h
      · simp at h
      · split at h
        · injection h with h; injection h; simp_all
        · cases hg : NoteStorage.get_next_id fd now with
          | error e => rw [hg] at h; simp [bind, Except.bind] at h
          | ok nid => rw [hg] at h; simp [bind, Except.bind] at h
  · intro fd now category priority status r fd2 h
    unfold NoteCommands.list_notes at h
    cases hl : NoteStorage.load_notes fd now with
    | error e => rw [hl] at h; simp [bind, Except.bind] at h
    | ok notes =>
      rw [hl] at h
      simp only [bind, Except.bind] at h
      injection h with h
      injection h
      simp_all
  · intro fd now i j fd2 h
    unfold NoteCommands.delete_note at h
    cases hl : NoteStorage.load_notes fd now with
    | error e => rw [hl] at h; simp [bind, Except.bind] at h
    | ok notes =>
      rw [hl] at h
      simp only [bind, Except.bind] at h
      split at h
      · simp at h
      · injection h with h; injection h; simp_all
  · intro fd now i j fd2 h
    unfold NoteCommands.archive_note at h
    cases hl : NoteStorage.load_notes fd now with
    | error e => rw [hl] at h; simp [bind, Except.bind] at h
    | ok notes =>
      rw [hl] at h
      simp only [bind, Except.bind] at h
      split at h
      · injection h with h; injection h; simp_all
      · simp at h
      · simp at h
  · intro fd now i title content category priority tags c fd2 h
    unfold NoteCommands.edit_note at h
    cases hl : NoteStorage.load_notes fd now with
    | error e => rw [hl] at h; simp [bind, Except.bind] at h
    | ok notes =>
      rw [hl] at h
      simp only [bind, Except.bind] at h
      split at h
      · simp at h
      · injection h with h; injection h; simp_all
      · simp at h
      · simp at h
  · intro fd now i title content category priority tags p fd2 h
    unfold NoteCommands.edit_note at h
    cases hl : NoteStorage.load_notes fd now with
    | error e => rw [hl] at h; simp [bind, Except.bind] at h
    | ok notes =>
      rw [hl] at h
      simp only [bind, Except.bind] at h
      split at h
      · simp at h
      · simp at h
      · injection h with h; injection h; simp_all
      · simp at h
  · intro fd now i title content category priority tags j fd2 h
    unfold NoteCommands.edit_note at h
    cases hl : NoteStorage.load_notes fd now with
    | error e => rw [hl] at h; simp [bind, Except.bind] at h
    | ok notes =>
      rw [hl] at h
      simp only [bind, Except.bind] at h
      split at h
      · injection h with h; injection h; simp_all
      · simp at h
      · simp at h
      · simp at h

theorem editById_found (note_id : Int) (now : String) (l2 : List Note) (n : Note)
    (hid : n.id = note_id) :
    ∀ l1 : List Note, (∀ m ∈ l1, m.id ≠ note_id) →
      editById note_id now none none none none none (l1 ++ n :: l2)
        = .updated (l1 ++ (n.update none none none none none now) :: l2)
            (n.update none none none none none now).title := by
  intro l1
  induction l1 with
  | nil =>
    intro _
    simp [editById, hid, parseFilter, pyStrTruthy]
  | cons m l1 ih =>
    intro hm
    have hmne : (m.id == note_id) = false := by
      simp [hm m (by simp)]
    simp only [List.cons_append, editById, hmne, Bool.false_eq_true, if_false,
      List.append_eq]
    rw [ih (fun x hx => hm x (by simp [hx]))]

/-- Claim C4: editing an existing id with no optional field supplied
rewrites the collection with only that note's `updated_at` replaced by
the current time (strictly later, provided the clock advanced); its
other eight fields, and every other note, are unchanged. -/
theorem claim_C4 (fd : FileData) (now : String) (l1 l2 : List Note) (n : Note)
    (hload : NoteStorage.load_notes fd now = .ok (l1 ++ n :: l2))
    (hl1 : ∀ m ∈ l1, m.id ≠ n.id) :
    ∃ n2 : Note,
      NoteCommands.edit_note fd now n.id none none none none none
        = .ok (.updated n.id n2.title, NoteStorage.save_notes (l1 ++ n2 :: l2))
      ∧ n2.id = n.id ∧ n2.title = n.title ∧ n2.content = n.content
      ∧ n2.category = n.category ∧ n2.priority = n.priority
      ∧ n2.tags = n.tags ∧ n2.status = n.status
      ∧ n2.created_at = n.created_at ∧ n2.updated_at = now
      ∧ (strLe n.updated_at now = true → n.updated_at ≠ now →
          strLe n.updated_at n2.updated_at = true ∧ n.updated_at ≠ n2.updated_at) := by
  refine ⟨n.update none none none none none now, ?_, ?_, ?_, ?_, ?_, ?_, ?_, ?_, ?_, ?_, ?_⟩
  · unfold NoteCommands.edit_note
    rw [hload]
    simp only [bind, Except.bind]
    rw [editById_found n.id now l2 n rfl l1 hl1]
  · rfl
  · rfl
  · rfl
  · rfl
  · rfl
  · rfl
  · rfl
  · rfl
  · rfl
  · intro hle hne
    exact ⟨hle, hne⟩

/-- Witness for C8: adding with the unknown category `Bogus` leaves the
persisted file unchanged. -/
theorem claim_C8_witness :
    NoteStorage.save_notes [noteA] = NoteStorage.save_notes [noteA] :=
  claim_C8.1 (NoteStorage.save_notes [noteA]) "T" "t" "c" "Bogus" "medium" none
    "Bogus" (NoteStorage.save_notes [noteA]) rfl

/-- Witness for C4: editing `noteB` with no fields in a two-note store
changes only its `updated_at`. -/
theorem claim_C4_witness :
    ∃ n2 : Note,
      NoteCommands.edit_note (NoteStorage.save_notes [noteA, noteB])
          "2024-03-01T00:00:00" noteB.id none none none none none
        = .ok (.updated noteB.id n2.title, NoteStorage.save_notes ([noteA] ++ n2 :: []))
      ∧ n2.id = noteB.id ∧ n2.title = noteB.title ∧ n2.content = noteB.content
      ∧ n2.category = noteB.category ∧ n2.priority = noteB.priority
      ∧ n2.tags = noteB.tags ∧ n2.status = noteB.status
      ∧ n2.created_at = noteB.created_at ∧ n2.updated_at = "2024-03-01T00:00:00"
      ∧ (strLe noteB.updated_at "2024-03-01T00:00:00" = true →
          noteB.updated_at ≠ "2024-03-01T00:00:00" →
          strLe noteB.updated_at n2.updated_at = true
            ∧ noteB.updated_at ≠ n2.updated_at) :=
  claim_C4 (NoteStorage.save_notes [noteA, noteB]) "2024-03-01T00:00:00"
    [noteA] [] noteB rfl (by decide)

/-! Serialization round-trip lemmas. -/

theorem catOfValue_value (c : NoteCategory) : NoteCategory.ofValue c.value = some c := by
  cases c <;> rfl

theorem priOfValue_value (p : NotePriority) : NotePriority.ofValue p.value = some p := by
  cases p <;> rfl

theorem statOfValue_value (s : NoteStatus) : NoteStatus.ofValue s.value = some s := by
  cases s <;> rfl

theorem pyTagsOr_some (l : List String) : pyTagsOr (some l) = l := by
  cases l <;> rfl

theorem pyOrNow_some_of_ne {s : String} (now : String) (h : s ≠ "") :
    pyOrNow (some s) now = s := by
  simp [pyOrNow, h]

theorem from_dict_to_dict (n : Note) (now : String) (h : n.wellFormed = true) :
    Note.from_dict n.to_dict now = .ok n := by
  simp only [Note.wellFormed, Bool.and_eq_true, Bool.not_eq_eq_eq_not, Bool.not_true,
    beq_eq_false_iff_ne, ne_eq] at h
  unfold Note.from_dict Note.to_dict
  simp only [getRequired, getEnum, catOfValue_value, priOfValue_value,
    statOfValue_value, Option.getD_some, bind, Except.bind]
  unfold Note.init
  rw [pyTagsOr_some, pyOrNow_some_of_ne now h.1, pyOrNow_some_of_ne now h.2]

theorem load_notes_save_notes (notes : List Note) (now : String)
    (h : ∀ n ∈ notes, n.wellFormed = true) :
    NoteStorage.load_notes (NoteStorage.save_notes notes) now = .ok notes := by
  have hm : (notes.map Note.to_dict).mapM (fun r => Note.from_dict r now) = .ok notes := by
    induction notes with
    | nil => rfl
    | cons n l ih =>
      rw [List.map_cons, List.mapM_cons, from_dict_to_dict n now (h n (by simp)),
        ih (fun m hm => h m (by simp [hm]))]
      rfl
  have hred : NoteStorage.load_notes (NoteStorage.save_notes notes) now
      = (match (notes.map Note.to_dict).mapM (fun r => Note.from_dict r now) with
         | .ok ns => (.ok ns : Except PyError (List Note))
         | .error .keyError => .ok []
         | .error .valueError => .error .valueError) := rfl
  rw [hred, hm]

/-- Claim C3: saving a well-formed collection and loading it back
yields the identical sequence, field for field and in order;
equivalently `from_dict (to_dict n)` reconstructs every well-formed
note. -/
theorem claim_C3 (notes : List Note) (now : String)
    (h : ∀ n ∈ notes, n.wellFormed = true) :
    NoteStorage.load_notes (NoteStorage.save_notes notes) now = .ok notes
    ∧ ∀ n ∈ notes, Note.from_dict n.to_dict now = .ok n :=
  ⟨load_notes_save_notes notes now h,
   fun n hn => from_dict_to_dict n now (h n hn)⟩

/-- Witness for C3: the two-note fixture collection survives the
round trip unchanged. -/
theorem claim_C3_witness :
    NoteStorage.load_notes (NoteStorage.save_notes [noteA, noteB]) "T" = .ok [noteA, noteB] :=
  (claim_C3 [noteA, noteB] "T" (by decide)).1

/-! Load failure-policy lemmas. -/

theorem load_notes_records_eq (rs : List RawNote) (now : String) :
    NoteStorage.load_notes (.records rs) now
      = (match rs.mapM (fun r => Note.from_dict r now) with
         | .ok ns => (.ok ns : Except PyError (List Note))
         | .error .keyError => .ok []
         | .error .valueError => .error .valueError) := rfl

theorem mapM_from_dict_keyError (now : String) (rs : List RawNote)
    (hk : ∃ r ∈ rs, Note.from_dict r now = .error .keyError)
    (hv : ∀ r ∈ rs, Note.from_dict r now ≠ .error .valueError) :
    rs.mapM (fun r => Note.from_dict r now) = .error .keyError := by
  induction rs with
  | nil => rcases hk with ⟨r, hr, _⟩; cases hr
  | cons r rs ih =>
    rw [List.mapM_cons]
    cases hfd : Note.from_dict r now with
    | error e =>
      cases e with
      | keyError => rfl
      | valueError => exact absurd hfd (hv r (by simp))
    | ok n =>
      have hk2 : ∃ r2 ∈ rs, Note.from_dict r2 now = .error .keyError := by
        rcases hk with ⟨r2, hr2, he⟩
        rcases List.mem_cons.mp hr2 with h | h
        · subst h; rw [hfd] at he; cases he
        · exact ⟨r2, h, he⟩
      rw [ih hk2 (fun r2 h2 => hv r2 (by simp [h2]))]
      rfl

theorem mapM_from_dict_valueError (now : String) (rs : List RawNote)
    (hk : ∀ r ∈ rs, Note.from_dict r now ≠ .error .keyError)
    (hv : ∃ r ∈ rs, Note.from_dict r now = .error .valueError) :
    rs.mapM (fun r => Note.from_dict r now) = .error .valueError := by
  induction rs with
  | nil => rcases hv with ⟨r, hr, _⟩; cases hr
  | cons r rs ih =>
    rw [List.mapM_cons]
    cases hfd : Note.from_dict r now with
    | error e =>
      cases e with
      | keyError => exact absurd hfd (hk r (by simp))
      | valueError => rfl
    | ok n =>
      have hv2 : ∃ r2 ∈ rs, Note.from_dict r2 now = .error .valueError := by
        rcases hv with ⟨r2, hr2, he⟩
        rcases List.mem_cons.mp hr2 with h | h
        · subst h; rw [hfd] at he; cases he
        · exact ⟨r2, h, he⟩
      rw [ih (fun r2 h2 => hk r2 (by simp [h2])) hv2]
      rfl

/-- Counterexample for C1: a file holding one record whose `category`
value is unrecognized makes `load_notes` raise `ValueError` instead of
returning the empty sequence; the exception escapes because the source
catches only `JSONDecodeError` and `KeyError`. -/
theorem claim_C1_counterexample :
    NoteStorage.load_notes (FileData.records [rawBad]) "2024-06-01T00:00:00"
      = .error .valueError
    ∧ NoteStorage.load_notes (FileData.records [rawBad]) "2024-06-01T00:00:00"
      ≠ .ok [] := by
  constructor
  · rfl
  · rw [show NoteStorage.load_notes (FileData.records [rawBad]) "2024-06-01T00:00:00"
        = .error .valueError from rfl]
    simp

/-- Claim C1 as amended: an undecodable file loads as the empty
sequence, and so does a record collection whose conversion failures are
all missing-required-key failures; but when a record fails with an
unrecognized category/priority/status value (and no missing-key failure
occurs), the load raises `ValueError` rather than returning empty. -/
theorem claim_C1_amended (fd : FileData) (now : String) :
    (fd = .invalid → NoteStorage.load_notes fd now = .ok [])
    ∧ (∀ rs, fd = .records rs →
      (((∃ r ∈ rs, Note.from_dict r now = .error .keyError)
          ∧ ∀ r ∈ rs, Note.from_dict r now ≠ .error .valueError) →
        NoteStorage.load_notes fd now = .ok [])
      ∧ (((∀ r ∈ rs, Note.from_dict r now ≠ .error .keyError)
          ∧ ∃ r ∈ rs, Note.from_dict r now = .error .valueError) →
        NoteStorage.load_notes fd now = .error .valueError)) := by
  refine ⟨?_, ?_⟩
  · intro h; subst h; rfl
  · intro rs h
    subst h
    constructor
    · intro ⟨hk, hv⟩
      rw [load_notes_records_eq, mapM_from_dict_keyError now rs hk hv]
    · intro ⟨hk, hv⟩
      rw [load_notes_records_eq, mapM_from_dict_valueError now rs hk hv]

/-- Witness for the amended C1: a record missing its `id` key loads
as the empty collection. -/
theorem claim_C1_amended_witness :
    NoteStorage.load_notes (FileData.records [rawNoId]) "T" = .ok [] :=
  ((claim_C1_amended (FileData.records [rawNoId]) "T").2 [rawNoId] rfl).1
    ⟨⟨rawNoId, by simp, rfl⟩,
     fun r hr => by
       rw [List.mem_singleton] at hr
       subst hr
       rw [show Note.from_dict rawNoId "T" = .error .keyError from rfl]
       simp⟩

theorem mem_applyCategory {f : Option NoteCategory} {l : List Note} {a : Note}
    (h : a ∈ applyCategory f l) : a ∈ l := by
  cases f with
  | none => exact h
  | some c => exact (List.mem_filter.mp h).1

theorem mem_applyPriority {f : Option NotePriority} {l : List Note} {a : Note}
    (h : a ∈ applyPriority f l) : a ∈ l := by
  cases f with
  | none => exact h
  | some c => exact (List.mem_filter.mp h).1

theorem mem_applyStatus {f : Option NoteStatus} {l : List Note} {a : Note}
    (h : a ∈ applyStatus f l) : a ∈ l := by
  cases f with
  | none => exact h
  | some c => exact (List.mem_filter.mp h).1

theorem pair_sublist_applyCategory (f : Option NoteCategory) {l : List Note} {a b : Note}
    (hab : List.Sublist [a, b] l) (ha : a ∈ applyCategory f l)
    (hb : b ∈ applyCategory f l) : List.Sublist [a, b] (applyCategory f l) := by
  cases f with
  | none => exact hab
  | some c =>
    exact pair_sublist_filter _ hab (List.mem_filter.mp ha).2 (List.mem_filter.mp hb).2

theorem pair_sublist_applyPriority (f : Option NotePriority) {l : List Note} {a b : Note}
    (hab : List.Sublist [a, b] l) (ha : a ∈ applyPriority f l)
    (hb : b ∈ applyPriority f l) : List.Sublist [a, b] (applyPriority f l) := by
  cases f with
  | none => exact hab
  | some c =>
    exact pair_sublist_filter _ hab (List.mem_filter.mp ha).2 (List.mem_filter.mp hb).2

theorem pair_sublist_applyStatus (f : Option NoteStatus) {l : List Note} {a b : Note}
    (hab : List.Sublist [a, b] l) (ha : a ∈ applyStatus f l)
    (hb : b ∈ applyStatus f l) : List.Sublist [a, b] (applyStatus f l) := by
  cases f with
  | none => exact hab
  | some c =>
    exact pair_sublist_filter _ hab (List.mem_filter.mp ha).2 (List.mem_filter.mp hb).2

theorem createdDesc_of_eq {a b : Note} (h : a.created_at = b.created_at) :
    createdDesc a b := by
  unfold createdDesc
  rw [h]
  exact strLe_refl b.created_at

/-- Claim C7: the notes rendered by List (after filtering) and by
Search are sorted by `created_at` descending, and the sort is stable:
two returned notes with equal `created_at` keep their relative order
from the original file order. -/
theorem claim_C7 :
    (∀ (notes : List Note) (category priority status : Option String) (ns : List Note),
      NoteCommands.list_core notes category priority status = .found ns →
      ns.Pairwise createdDesc
      ∧ ∀ a b : Note, List.Sublist [a, b] notes → a ∈ ns → b ∈ ns →
          a.created_at = b.created_at → List.Sublist [a, b] ns)
    ∧ (∀ (notes : List Note) (term scope t : String) (ns : List Note),
      NoteCommands.search_core notes term scope = .found t ns →
      ns.Pairwise createdDesc
      ∧ ∀ a b : Note, List.Sublist [a, b] notes → a ∈ ns → b ∈ ns →
          a.created_at = b.created_at → List.Sublist [a, b] ns) := by
  constructor
  · intro notes category priority status ns h
    unfold NoteCommands.list_core at h
    split at h
    · exact absurd h (by simp)
    · split at h
      · exact absurd h (by simp)
      · split at h
        · exact absurd h (by simp)
        · split at h
          · exact absurd h (by simp)
          · dsimp only at h
            split at h
            · exact absurd h (by simp)
            · injection h with h
              subst h
              refine ⟨sorted_sortByCreatedDesc _, ?_⟩
              intro a b hab ha hb heq
              rw [mem_sortByCreatedDesc] at ha hb
              exact pair_sublist_sortByCreatedDesc
                (pair_sublist_applyStatus _
                  (pair_sublist_applyPriority _
                    (pair_sublist_applyCategory _ hab
                      (mem_applyPriority (mem_applyStatus ha))
                      (mem_applyPriority (mem_applyStatus hb)))
                    (mem_applyStatus ha) (mem_applyStatus hb))
                  ha hb)
                (createdDesc_of_eq heq)
  · intro notes term scope t ns h
    unfold NoteCommands.search_core at h
    split at h
    · exact absurd h (by simp)
    · dsimp only at h
      split at h
      · exact absurd h (by simp)
      · injection h with h1 h2
        subst h2
        refine ⟨sorted_sortByCreatedDesc _, ?_⟩
        intro a b hab ha hb heq
        rw [mem_sortByCreatedDesc] at ha hb
        exact pair_sublist_sortByCreatedDesc
          (pair_sublist_filter _ hab (List.mem_filter.mp ha).2 (List.mem_filter.mp hb).2)
          (createdDesc_of_eq heq)

/-- Witness for C7: two active notes sharing `created_at` are listed
in descending sorted order with their original order preserved. -/
theorem claim_C7_witness :
    List.Pairwise createdDesc [noteA, noteC] ∧ List.Sublist [noteA, noteC] [noteA, noteC] :=
  ⟨(claim_C7.1 [noteA, noteC] none none (some "active") [noteA, noteC] (by decide)).1,
   (claim_C7.1 [noteA, noteC] none none (some "active") [noteA, noteC] (by decide)).2
     noteA noteC (List.Sublist.refl _) (by decide) (by decide) (by decide)⟩

/-! Id assignment lemmas. -/

theorem maxIdFrom_le_self (l : List Note) : ∀ acc : Int, acc ≤ maxIdFrom acc l := by
  induction l with
  | nil => intro acc; exact le_refl acc
  | cons n rest ih =>
    intro acc
    calc acc ≤ max acc n.id := le_max_left _ _
    _ ≤ maxIdFrom (max acc n.id) rest := ih _

theorem le_maxIdFrom_of_mem (l : List Note) : ∀ (acc : Int) (m : Note), m ∈ l →
    m.id ≤ maxIdFrom acc l := by
  induction l with
  | nil => intro acc m hm; cases hm
  | cons n rest ih =>
    intro acc m hm
    rcases List.mem_cons.mp hm with h | h
    · subst h
      calc m.id ≤ max acc m.id := le_max_right _ _
      _ ≤ maxIdFrom (max acc m.id) rest := maxIdFrom_le_self rest _
    · exact ih _ m h

theorem maxIdFrom_attained (l : List Note) : ∀ acc : Int,
    maxIdFrom acc l = acc ∨ ∃ m ∈ l, maxIdFrom acc l = m.id := by
  induction l with
  | nil => intro acc; left; rfl
  | cons n rest ih =>
    intro acc
    rcases ih (max acc n.id) with h | ⟨m, hm, h⟩
    · rcases max_choice acc n.id with h2 | h2
      · left; rw [show maxIdFrom acc (n :: rest) = maxIdFrom (max acc n.id) rest from rfl, h, h2]
      · right
        exact ⟨n, by simp, by
          rw [show maxIdFrom acc (n :: rest) = maxIdFrom (max acc n.id) rest from rfl, h, h2]⟩
    · right
      exact ⟨m, by simp [hm], by
        rw [show maxIdFrom acc (n :: rest) = maxIdFrom (max acc n.id) rest from rfl, h]⟩

theorem lt_nextIdOf {notes : List Note} {m : Note} (hm : m ∈ notes) :
    m.id < nextIdOf notes := by
  cases notes with
  | nil => cases hm
  | cons n rest =>
    have hle : m.id ≤ maxIdFrom n.id rest := by
      rcases List.mem_cons.mp hm with h | h
      · subst h; exact maxIdFrom_le_self rest m.id
      · exact le_maxIdFrom_of_mem rest n.id m h
    show m.id < maxIdFrom n.id rest + 1
    omega

theorem get_next_id_eq (fd : FileData) (now : String) (notes : List Note)
    (hl : NoteStorage.load_notes fd now = .ok notes) :
    NoteStorage.get_next_id fd now = .ok (nextIdOf notes) := by
  unfold NoteStorage.get_next_id
  rw [hl]
  simp only [bind, Except.bind]
  cases notes <;> rfl

theorem wellFormed_of_now {n : Note} (hc : n.created_at ≠ "") (hu : n.updated_at ≠ "") :
    n.wellFormed = true := by
  simp [Note.wellFormed, hc, hu]

theorem applyAdd_preserves (notes : List Note) (c : AddCall)
    (hwf : ∀ n ∈ notes, n.wellFormed = true)
    (hmono : notes.Pairwise (fun a b => a.id < b.id))
    (hnow : c.now ≠ "") :
    ∃ notes2 : List Note,
      applyAdd (NoteStorage.save_notes notes) c = NoteStorage.save_notes notes2
      ∧ (∀ n ∈ notes2, n.wellFormed = true)
      ∧ notes2.Pairwise (fun a b => a.id < b.id) := by
  unfold applyAdd NoteCommands.add_note
  rw [load_notes_save_notes notes c.now hwf]
  simp only [bind, Except.bind]
  cases hc : NoteCategory.ofValue (lowerStr c.category) with
  | none => exact ⟨notes, rfl, hwf, hmono⟩
  | some nc =>
    cases hp : NotePriority.ofValue (lowerStr c.priority) with
    | none => exact ⟨notes, rfl, hwf, hmono⟩
    | some np =>
      rw [get_next_id_eq (NoteStorage.save_notes notes) c.now notes
        (load_notes_save_notes notes c.now hwf)]
      refine ⟨notes ++ [Note.init (nextIdOf notes)
        c.title c.content nc np (some (pyTagsOr c.tags)) .active none none c.now],
        rfl, ?_, ?_⟩
      · intro n hn
        rcases List.mem_append.mp hn with h | h
        · exact hwf n h
        · rw [List.mem_singleton] at h
          subst h
          exact wellFormed_of_now (by simpa [Note.init, pyOrNow] using hnow)
            (by simpa [Note.init, pyOrNow] using hnow)
      · rw [List.pairwise_append]
        refine ⟨hmono, by simp, ?_⟩
        intro a ha b hb
        rw [List.mem_singleton] at hb
        subst hb
        show a.id < _
        simp only [Note.init]
        exact lt_nextIdOf ha

/-- Claim C2: a successful Add assigns the new note the id `1` on an
empty collection and one greater than the maximum existing id
otherwise, and consequently any sequence of Add operations starting
from the empty store yields pairwise-distinct ids. -/
theorem claim_C2 :
    (∀ (fd : FileData) (now title content category priority : String)
        (tags : Option (List String)) (i : Int) (t : String) (fd2 : FileData)
        (notes : List Note),
      NoteStorage.load_notes fd now = .ok notes →
      NoteCommands.add_note fd now title content category priority tags
        = .ok (.added i t, fd2) →
      (notes = [] → i = 1)
      ∧ (notes ≠ [] → (∀ m ∈ notes, m.id < i) ∧ ∃ m ∈ notes, m.id + 1 = i))
    ∧ (∀ calls : List AddCall, (∀ c ∈ calls, c.now ≠ "") →
      ∃ notes : List Note,
        runAdds (FileData.records []) calls = NoteStorage.save_notes notes
        ∧ notes.Pairwise (fun a b => a.id ≠ b.id)) := by
  constructor
  · intro fd now title content category priority tags i t fd2 notes hl h
    unfold NoteCommands.add_note at h
    rw [hl] at h
    simp only [bind, Except.bind] at h
    split at h
    · exact absurd h (by simp)
    · split at h
      · exact absurd h (by simp)
      · rw [get_next_id_eq fd now notes hl] at h
        simp only [Except.ok.injEq, Prod.mk.injEq, AddResult.added.injEq] at h
        obtain ⟨⟨hi, -⟩, -⟩ := h
        subst hi
        constructor
        · intro he; subst he; rfl
        · intro hne
          refine ⟨fun m hm => lt_nextIdOf hm, ?_⟩
          cases notes with
          | nil => exact absurd rfl hne
          | cons n rest =>
            rcases maxIdFrom_attained rest n.id with h | ⟨m, hm, h⟩
            · exact ⟨n, by simp, by show n.id + 1 = maxIdFrom n.id rest + 1; omega⟩
            · exact ⟨m, by simp [hm], by show m.id + 1 = maxIdFrom n.id rest + 1; omega⟩
  · have main : ∀ (calls : List AddCall) (notes : List Note),
        (∀ c ∈ calls, c.now ≠ "") → (∀ n ∈ notes, n.wellFormed = true) →
        notes.Pairwise (fun a b => a.id < b.id) →
        ∃ notes2 : List Note,
          runAdds (NoteStorage.save_notes notes) calls = NoteStorage.save_notes notes2
          ∧ notes2.Pairwise (fun a b => a.id < b.id) := by
      intro calls
      induction calls with
      | nil => intro notes _ hwf hm; exact ⟨notes, rfl, hm⟩
      | cons c cs ih =>
        intro notes hnow hwf hm
        obtain ⟨n1, he, hwf1, hm1⟩ := applyAdd_preserves notes c hwf hm (hnow c (by simp))
        rw [show runAdds (NoteStorage.save_notes notes) (c :: cs)
            = runAdds (applyAdd (NoteStorage.save_notes notes) c) cs from rfl, he]
        exact ih n1 (fun c2 h2 => hnow c2 (by simp [h2])) hwf1 hm1
    intro calls hnow
    obtain ⟨notes, he, hm⟩ := main calls [] hnow (by simp) (by simp)
    exact ⟨notes, he, hm.imp fun h => by omega⟩

/-- Witness for C2: two concrete Add calls from the empty store
produce a collection with distinct ids. -/
theorem claim_C2_witness :
    ∃ notes : List Note,
      runAdds (FileData.records [])
        [⟨"2024-01-01T00:00:00", "t1", "c1", "work", "low", none⟩,
         ⟨"2024-01-02T00:00:00", "t2", "c2", "personal", "high", none⟩]
        = NoteStorage.save_notes notes
      ∧ notes.Pairwise (fun a b => a.id ≠ b.id) :=
  claim_C2.2
    [⟨"2024-01-01T00:00:00", "t1", "c1", "work", "low", none⟩,
     ⟨"2024-01-02T00:00:00", "t2", "c2", "personal", "high", none⟩]
    (by decide)

/-! Reachability lemmas for the timestamp invariant. -/

theorem deleteById_mem (i : Int) : ∀ (l r : List Note) (t : String),
    deleteById i l = some (t, r) → ∀ m ∈ r, m ∈ l := by
  intro l
  induction l with
  | nil => intro r t h; cases h
  | cons n rest ih =>
    intro r t h m hm
    unfold deleteById at h
    split at h
    · injection h with h
      injection h with h1 h2
      subst h2
      exact List.mem_cons_of_mem n hm
    · split at h
      · cases h
      · rename_i t2 r2 hd
        injection h with h
        injection h with h1 h2
        subst h2
        rcases List.mem_cons.mp hm with h3 | h3
        · subst h3; simp
        · exact List.mem_cons_of_mem n (ih r2 t2 hd m h3)

theorem archiveById_mem (i : Int) (now : String) : ∀ (l ns : List Note) (ttl : String),
    archiveById i now l = .archived ns ttl →
    ∀ m ∈ ns, m ∈ l ∨ ∃ n0 ∈ l, m.created_at = n0.created_at ∧ m.updated_at = now := by
  intro l
  induction l with
  | nil => intro ns ttl h; cases h
  | cons n rest ih =>
    intro ns ttl h m hm
    unfold archiveById at h
    split at h
    · split at h
      · cases h
      · injection h with h1 h2
        subst h1
        rcases List.mem_cons.mp hm with h3 | h3
        · subst h3
          right
          exact ⟨n, by simp, rfl, rfl⟩
        · left; exact List.mem_cons_of_mem n h3
    · split at h
      · cases h
      · cases h
      · rename_i ns2 t2 ha
        injection h with h1 h2
        subst h1
        rcases List.mem_cons.mp hm with h3 | h3
        · subst h3; left; simp
        · rcases ih ns2 t2 ha m h3 with h4 | ⟨n0, hn0, he⟩
          · left; exact List.mem_cons_of_mem n h4
          · right; exact ⟨n0, List.mem_cons_of_mem n hn0, he⟩

theorem editById_mem (i : Int) (now : String) (title content : Option String)
    (category priority : Option String) (tags : Option (List String)) :
    ∀ (l ns : List Note) (ttl : String),
    editById i now title content category priority tags l = .updated ns ttl →
    ∀ m ∈ ns, m ∈ l ∨ ∃ n0 ∈ l, m.created_at = n0.created_at ∧ m.updated_at = now := by
  intro l
  induction l with
  | nil => intro ns ttl h; cases h
  | cons n rest ih =>
    intro ns ttl h m hm
    unfold editById at h
    split at h
    · split at h
      · cases h
      · split at h
        · cases h
        · injection h with h1 h2
          subst h1
          rcases List.mem_cons.mp hm with h3 | h3
          · subst h3
            right
            exact ⟨n, by simp, rfl, rfl⟩
          · left; exact List.mem_cons_of_mem n h3
    · split at h
      · cases h
      · cases h
      · cases h
      · rename_i ns2 t2 he
        injection h with h1 h2
        subst h1
        rcases List.mem_cons.mp hm with h3 | h3
        · subst h3; left; simp
        · rcases ih ns2 t2 he m h3 with h4 | ⟨n0, hn0, hee⟩
          · left; exact List.mem_cons_of_mem n h4
          · right; exact ⟨n0, List.mem_cons_of_mem n hn0, hee⟩

theorem wellFormed_created {n : Note} (h : n.wellFormed = true) : n.created_at ≠ "" := by
  simp only [Note.wellFormed, Bool.and_eq_true, Bool.not_eq_eq_eq_not, Bool.not_true,
    beq_eq_false_iff_ne, ne_eq] at h
  exact h.1

theorem applyOp_preserves (notes : List Note) (op : Op) (t t2 : String)
    (hinv : ∀ n ∈ notes, n.wellFormed = true ∧ strLe n.created_at n.updated_at = true
      ∧ strLe n.updated_at t = true)
    (ht : strLe t t2 = true) (ht2 : t2 ≠ "") :
    ∃ notes2 : List Note,
      applyOp (NoteStorage.save_notes notes) t2 op = NoteStorage.save_notes notes2
      ∧ ∀ n ∈ notes2, n.wellFormed = true ∧ strLe n.created_at n.updated_at = true
        ∧ strLe n.updated_at t2 = true := by
  have hwf : ∀ n ∈ notes, n.wellFormed = true := fun n hn => (hinv n hn).1
  have hold : ∀ n ∈ notes, n.wellFormed = true ∧ strLe n.created_at n.updated_at = true
      ∧ strLe n.updated_at t2 = true :=
    fun n hn => ⟨(hinv n hn).1, (hinv n hn).2.1, strLe_trans (hinv n hn).2.2 ht⟩
  have hcreated_le : ∀ n ∈ notes, strLe n.created_at t2 = true :=
    fun n hn => strLe_trans (hinv n hn).2.1 (strLe_trans (hinv n hn).2.2 ht)
  cases op with
  | add title content category priority tags =>
    unfold applyOp NoteCommands.add_note
    rw [load_notes_save_notes notes t2 hwf]
    simp only [bind, Except.bind]
    cases hc : NoteCategory.ofValue (lowerStr category) with
    | none => exact ⟨notes, rfl, hold⟩
    | some nc =>
      cases hp : NotePriority.ofValue (lowerStr priority) with
      | none => exact ⟨notes, rfl, hold⟩
      | some np =>
        rw [get_next_id_eq _ t2 notes (load_notes_save_notes notes t2 hwf)]
        refine ⟨notes ++ [Note.init (nextIdOf notes) title content nc np
          (some (pyTagsOr tags)) .active none none t2], rfl, ?_⟩
        intro n hn
        rcases List.mem_append.mp hn with h | h
        · exact hold n h
        · rw [List.mem_singleton] at h
          subst h
          refine ⟨wellFormed_of_now (by simpa [Note.init, pyOrNow] using ht2)
            (by simpa [Note.init, pyOrNow] using ht2), ?_, ?_⟩
          · simpa [Note.init, pyOrNow] using strLe_refl t2
          · simpa [Note.init, pyOrNow] using strLe_refl t2
  | delete i =>
    unfold applyOp NoteCommands.delete_note
    rw [load_notes_save_notes notes t2 hwf]
    simp only [bind, Except.bind]
    cases hd : deleteById i notes with
    | none => exact ⟨notes, rfl, hold⟩
    | some p =>
      obtain ⟨ttl, r⟩ := p
      exact ⟨r, rfl, fun m hm => hold m (deleteById_mem i notes r ttl hd m hm)⟩
  | archive i =>
    unfold applyOp NoteCommands.archive_note
    rw [load_notes_save_notes notes t2 hwf]
    simp only [bind, Except.bind]
    cases ha : archiveById i t2 notes with
    | notFound => exact ⟨notes, rfl, hold⟩
    | alreadyArchived => exact ⟨notes, rfl, hold⟩
    | archived ns ttl =>
      refine ⟨ns, rfl, ?_⟩
      intro m hm
      rcases archiveById_mem i t2 notes ns ttl ha m hm with h | ⟨n0, hn0, hcc, huu⟩
      · exact hold m h
      · refine ⟨wellFormed_of_now (by rw [hcc]; exact wellFormed_created (hwf n0 hn0))
          (by rw [huu]; exact ht2), ?_, ?_⟩
        · rw [hcc, huu]; exact hcreated_le n0 hn0
        · rw [huu]; exact strLe_refl t2
  | edit i title content category priority tags =>
    unfold applyOp NoteCommands.edit_note
    rw [load_notes_save_notes notes t2 hwf]
    simp only [bind, Except.bind]
    cases he : editById i t2 title content category priority tags notes with
    | notFound => exact ⟨notes, rfl, hold⟩
    | invalidCategory c => exact ⟨notes, rfl, hold⟩
    | invalidPriority p => exact ⟨notes, rfl, hold⟩
    | updated ns ttl =>
      refine ⟨ns, rfl, ?_⟩
      intro m hm
      rcases editById_mem i t2 title content category priority tags notes ns ttl he m hm
        with h | ⟨n0, hn0, hcc, huu⟩
      · exact hold m h
      · refine ⟨wellFormed_of_now (by rw [hcc]; exact wellFormed_created (hwf n0 hn0))
          (by rw [huu]; exact ht2), ?_, ?_⟩
        · rw [hcc, huu]; exact hcreated_le n0 hn0
        · rw [huu]; exact strLe_refl t2

theorem runOps_inv : ∀ (calls : List (Op × String)) (notes : List Note) (t : String),
    (∀ n ∈ notes, n.wellFormed = true ∧ strLe n.created_at n.updated_at = true
      ∧ strLe n.updated_at t = true) →
    List.Chain (fun a b => strLe a b = true) t (calls.map Prod.snd) →
    (∀ c ∈ calls, c.2 ≠ "") →
    ∃ (notes2 : List Note) (t2 : String),
      runOps (NoteStorage.save_notes notes) calls = NoteStorage.save_notes notes2
      ∧ ∀ n ∈ notes2, n.wellFormed = true ∧ strLe n.created_at n.updated_at = true
        ∧ strLe n.updated_at t2 = true := by
  intro calls
  induction calls with
  | nil => intro notes t hinv _ _; exact ⟨notes, t, rfl, hinv⟩
  | cons c cs ih =>
    intro notes t hinv hch hne
    rw [List.map_cons, List.chain_cons] at hch
    obtain ⟨n1, he, hinv1⟩ := applyOp_preserves notes c.1 t c.2 hinv hch.1 (hne c (by simp))
    rw [show runOps (NoteStorage.save_notes notes) (c :: cs)
        = runOps (applyOp (NoteStorage.save_notes notes) c.2 c.1) cs from rfl, he]
    exact ih n1 c.2 hinv1 hch.2 (fun c2 h2 => hne c2 (by simp [h2]))

/-- Claim C9: along any sequence of operations run from the empty
store with a monotone clock (each call's timestamp is a nonempty string
bounded by the next), every note of every reachable collection —
including the collection as reconstructed by `from_dict` on load —
satisfies `created_at <= updated_at` lexicographically. -/
theorem claim_C9 (calls : List (Op × String))
    (hch : List.Chain' (fun a b => strLe a b = true) (calls.map Prod.snd))
    (hne : ∀ c ∈ calls, c.2 ≠ "") :
    ∃ notes : List Note,
      runOps (FileData.records []) calls = NoteStorage.save_notes notes
      ∧ (∀ now2, NoteStorage.load_notes (runOps (FileData.records []) calls) now2 = .ok notes)
      ∧ ∀ n ∈ notes, strLe n.created_at n.updated_at = true := by
  have hstart : ∃ t, List.Chain (fun a b => strLe a b = true) t (calls.map Prod.snd) := by
    cases calls with
    | nil => exact ⟨"", List.Chain.nil⟩
    | cons c cs =>
      refine ⟨c.2, ?_⟩
      rw [List.map_cons, List.chain_cons]
      exact ⟨strLe_refl c.2, by rw [List.map_cons] at hch; exact hch⟩
  obtain ⟨t, hchain⟩ := hstart
  obtain ⟨notes, t2, he, hinv⟩ := runOps_inv calls [] t (by simp) hchain hne
  rw [show NoteStorage.save_notes ([] : List Note) = FileData.records [] from rfl] at he
  refine ⟨notes, he, ?_, fun n hn => (hinv n hn).2.1⟩
  intro now2
  rw [he]
  exact load_notes_save_notes notes now2 (fun n hn => (hinv n hn).1)

/-- Witness for C9: an Add followed by an Archive at a later time
yields a loadable collection whose notes satisfy the invariant. -/
theorem claim_C9_witness :
    ∃ notes : List Note,
      runOps (FileData.records [])
        [(Op.add "t" "c" "work" "low" none, "2024-01-01T00:00:00"),
         (Op.archive 1, "2024-01-02T00:00:00")]
        = NoteStorage.save_notes notes
      ∧ (∀ now2, NoteStorage.load_notes
          (runOps (FileData.records [])
            [(Op.add "t" "c" "work" "low" none, "2024-01-01T00:00:00"),
             (Op.archive 1, "2024-01-02T00:00:00")]) now2 = .ok notes)
      ∧ ∀ n ∈ notes, strLe n.created_at n.updated_at = true :=
  claim_C9
    [(Op.add "t" "c" "work" "low" none, "2024-01-01T00:00:00"),
     (Op.archive 1, "2024-01-02T00:00:00")]
    (List.chain'_cons.mpr ⟨by decide, List.chain'_singleton _⟩) (by decide)
